import Mathlib

/-!
# combine_lang_model

A verification development for `src/training/combine_lang_model.cpp`, the program that
assembles a `traineddata` artifact from a unicharset and optional word lists.

The file has two parts.

* The program itself (`main`) is embedded from the source.  Its collaborators that
  depend on the file system or live in other translation units (`ReadFile`,
  `UNICHARSET::load_from_file`, `SetupBasicProperties`, `SetScriptProperties`,
  `CombineLangModel`) are fields of an environment record `Env`, so every theorem
  about `main` holds for all their implementations.  A run of `main` is the list of
  calls it makes, in order, together with its exit status.
* The recoder builder and the dictionary compiler that `CombineLangModel` stands for
  are not part of the source file.  They are modelled from the specification; each
  such definition says so in its doc comment.
-/

set_option autoImplicit false

namespace LangModel

/-! ## Command-line flags (lines 25-40) -/

/-- The ten flags declared with `STRING_PARAM_FLAG` / `BOOL_PARAM_FLAG`.  The field
defaults are the defaults of the declarations: the empty string for every string flag
and `false` for both boolean flags. -/
structure Flags where
  input_unicharset : String := ""
  script_dir : String := ""
  words : String := ""
  puncs : String := ""
  numbers : String := ""
  output_dir : String := ""
  version_str : String := ""
  lang : String := ""
  lang_is_rtl : Bool := false
  pass_through_recoder : Bool := false
  deriving DecidableEq, Repr

/-- Modelled from the spec: the command line as `ParseCommandLineFlags` sees it, one
entry per flag assignment, already separated into flag name and value. -/
inductive FlagArg where
  | input_unicharset (v : String)
  | script_dir (v : String)
  | words (v : String)
  | puncs (v : String)
  | numbers (v : String)
  | output_dir (v : String)
  | version_str (v : String)
  | lang (v : String)
  | lang_is_rtl (v : Bool)
  | pass_through_recoder (v : Bool)
  deriving DecidableEq, Repr

/-- Modelled from the spec: `ParseCommandLineFlags` stores one assignment into the flag
variable it names. -/
def FlagArg.apply (f : Flags) : FlagArg → Flags
  | .input_unicharset v => { f with input_unicharset := v }
  | .script_dir v => { f with script_dir := v }
  | .words v => { f with words := v }
  | .puncs v => { f with puncs := v }
  | .numbers v => { f with numbers := v }
  | .output_dir v => { f with output_dir := v }
  | .version_str v => { f with version_str := v }
  | .lang v => { f with lang := v }
  | .lang_is_rtl v => { f with lang_is_rtl := v }
  | .pass_through_recoder v => { f with pass_through_recoder := v }

/-- Modelled from the spec: `tesseract::ParseCommandLineFlags` lives in
`commandlineflags.cpp`, which is not part of the source file; the specification treats
flag parsing as an external collaborator.  The model starts from the declared defaults
and stores every assignment given on the command line, left to right. -/
def ParseCommandLineFlags (argv : List FlagArg) : Flags :=
  argv.foldl FlagArg.apply {}

/-! ## `STRING::split` -/

/-- Modelled from the spec: the scan behind `STRING_split`.  `cur` is the piece collected
since the last separator (in reverse), `out` the pieces pushed so far (in reverse).  A
piece is pushed when a separator or the end of the string is reached and the piece is
not empty. -/
def splitScan (c : Char) : List Char → List Char → List (List Char) → List (List Char)
  | [], cur, out => (if cur = [] then out else cur.reverse :: out).reverse
  | x :: xs, cur, out =>
    if x = c then splitScan c xs [] (if cur = [] then out else cur.reverse :: out)
    else splitScan c xs (x :: cur) out

/-- Modelled from the spec: `STRING::split(c, &out)` is defined in `strngs.cpp`, which
is not part of the source file.  The pieces between occurrences of `c` are appended to
the (initially empty) output vector in the order they occur; an empty piece is not
appended, so an empty file content gives an empty list, as the comment at line 64 of
the source and section 6 of the specification say. -/
def STRING_split (s : String) (c : Char) : List String :=
  (splitScan c s.data [] []).map String.mk

/-! ## Collaborators and runs -/

/-- Arguments of one call to `tesseract::CombineLangModel`, in positional order
(lines 85-89).  `reader` and `writer` are the optional file callbacks; `none` is
`nullptr`. -/
structure CombineArgs (U : Type) where
  unicharset : U
  script_dir : String
  version_str : String
  output_dir : String
  lang : String
  pass_through_recoder : Bool
  words : List String
  puncs : List String
  numbers : List String
  lang_is_rtl : Bool
  reader : Option (String → Option String)
  writer : Option (String → String → Bool)

/-- The collaborators of `main`, over an arbitrary representation `U` of `UNICHARSET`.
`ReadFile name` is the content of the file, the empty string when the read fails;
`load_from_file name skip_fragments` is `none` when the C++ method returns `false`;
the two property setters update the unicharset they are given; `CombineLangModel`
returns the `int` that becomes the exit status. -/
structure Env (U : Type) where
  ReadFile : String → String
  load_from_file : String → Bool → Option U
  size : U → Nat
  SetupBasicProperties : Bool → Bool → U → U
  SetScriptProperties : String → U → U
  CombineLangModel : CombineArgs U → Int

/-- One externally visible step of a run of `main`. -/
inductive Event (U : Type) where
  | CheckSharedLibraryVersion
  | ParseCommandLineFlags
  | tprintf (text : String)
  | exit (status : Int)
  | ReadFile (name : String)
  | load_from_file (name : String) (skip_fragments : Bool)
  | SetupBasicProperties (report_errors decompose : Bool) (unicharset : U)
  | SetScriptProperties (script_dir : String) (unicharset : U)
  | CombineLangModel (args : CombineArgs U)

/-- A finished run: the steps taken, in order, and the exit status of the process. -/
structure Run (U : Type) where
  trace : List (Event U)
  status : Int

/-- The usage text printed by lines 49-60. -/
def usageText (argv0 : String) : List String :=
  ["Usage: " ++ argv0 ++ " --input_unicharset filename --script_dir dirname\n",
   "  --output_dir rootdir --lang lang [--lang_is_rtl]\n",
   "  [--words file --puncs file --numbers file]\n",
   "Sets properties on the input unicharset file, and writes:\n",
   "rootdir/lang/lang.charset_size=ddd.txt\n",
   "rootdir/lang/lang.traineddata\n",
   "rootdir/lang/lang.unicharset\n",
   "If the 3 word lists are provided, the dawgs are also added to",
   " the traineddata file.\n",
   "The output unicharset and charset_size files are just for human",
   " readability.\n"]

/-- The validity check of lines 47-48. -/
def flagsInvalid (FLAGS : Flags) : Bool :=
  FLAGS.input_unicharset.isEmpty || FLAGS.script_dir.isEmpty ||
    FLAGS.output_dir.isEmpty || FLAGS.lang.isEmpty

/-- The program `main` (lines 42-90).  `argv0` is the program name, `FLAGS` the values
of the flag variables after `ParseCommandLineFlags` has returned (line 44). -/
def main {U : Type} (env : Env U) (argv0 : String) (FLAGS : Flags) : Run U :=
  let start : List (Event U) := [.CheckSharedLibraryVersion, .ParseCommandLineFlags]
  if flagsInvalid FLAGS then
    { trace := start ++ (usageText argv0).map Event.tprintf ++ [.exit 1], status := 1 }
  else
    let words := STRING_split (env.ReadFile FLAGS.words) '\n'
    let puncs := STRING_split (env.ReadFile FLAGS.puncs) '\n'
    let numbers := STRING_split (env.ReadFile FLAGS.numbers) '\n'
    let reads : List (Event U) :=
      [.ReadFile FLAGS.words, .ReadFile FLAGS.puncs, .ReadFile FLAGS.numbers,
       .load_from_file FLAGS.input_unicharset false]
    match env.load_from_file FLAGS.input_unicharset false with
    | none =>
      { trace := start ++ reads ++
          [.tprintf ("Failed to load unicharset from " ++ FLAGS.input_unicharset ++ "\n")],
        status := 1 }
    | some unicharset =>
      let u1 := env.SetupBasicProperties true false unicharset
      let u2 := env.SetScriptProperties FLAGS.script_dir u1
      let args : CombineArgs U :=
        { unicharset := u2, script_dir := FLAGS.script_dir,
          version_str := FLAGS.version_str, output_dir := FLAGS.output_dir,
          lang := FLAGS.lang, pass_through_recoder := FLAGS.pass_through_recoder,
          words := words, puncs := puncs, numbers := numbers,
          lang_is_rtl := FLAGS.lang_is_rtl, reader := none, writer := none }
      { trace := start ++ reads ++
          [.tprintf ("Loaded unicharset of size " ++ toString (env.size unicharset) ++
              " from file " ++ FLAGS.input_unicharset ++ "\n"),
           .tprintf "Setting unichar properties\n",
           .SetupBasicProperties true false unicharset,
           .tprintf "Setting script properties\n",
           .SetScriptProperties FLAGS.script_dir u1,
           .CombineLangModel args],
        status := env.CombineLangModel args }

/-! ## Character inventory and recoder (specification sections 3 and 4.1) -/

/-- Modelled from the spec: a `CharacterEntry` of section 3.  The dense 0-based id of
an entry is its position in the inventory, so it is not stored.  `reserved_invalid`
marks the one reserved entry that stands for "invalid/unrecognized". -/
structure CharacterEntry where
  display : String
  script : String := ""
  is_digit : Bool := false
  is_punctuation : Bool := false
  is_upper : Bool := false
  is_lower : Bool := false
  is_whitespace : Bool := false
  is_rtl : Bool := false
  other_case : Option Nat := none
  reserved_invalid : Bool := false
  deriving DecidableEq, Repr

/-- Modelled from the spec: the Character Inventory of section 3, the entries in id
order. -/
abbrev Inventory := List CharacterEntry

/-- Modelled from the spec: the failure modes named in sections 4.1, 4.2 and 7.
`UnknownSymbol` names the offending symbol and the line it occurs in. -/
inductive BuildError where
  | RecoderConflict
  | EmptyInventory
  | UnknownSymbol (symbol : Nat) (line : List Nat)
  deriving DecidableEq, Repr

/-- Modelled from the spec: the `RecoderTable` of section 3.  `forward` lists, in id
order, the code sequence of every CharacterEntry id; `inverse` is the decoding table,
pairing each code sequence with the id it decodes to. -/
structure RecoderTable where
  forward : List (List Nat)
  inverse : List (List Nat × Nat)
  deriving DecidableEq, Repr

/-- Modelled from the spec: a compression policy, the part of section 4.1 that section 9
leaves open.  For an inventory and an id it gives the first code and the remaining
codes of the id, so that every code sequence is non-empty. -/
abbrev CompressionPolicy := Inventory → Nat → Nat × List Nat

/-- Modelled from the spec: the forward table of pass-through mode (section 4.1), each
id mapped to the single code equal to the id. -/
def passThroughCodes (inventory : Inventory) : List (List Nat) :=
  (List.range inventory.length).map fun id => [id]

/-- Modelled from the spec: the forward table of compression mode (section 4.1), the
code sequences the policy assigns. -/
def compressedCodes (policy : CompressionPolicy) (inventory : Inventory) : List (List Nat) :=
  (List.range inventory.length).map fun id => (policy inventory id).1 :: (policy inventory id).2

/-- Modelled from the spec: the decoding table that belongs to a forward table. -/
def inverseOf (forward : List (List Nat)) : List (List Nat × Nat) :=
  forward.zip (List.range forward.length)

/-- Modelled from the spec: the Recoder Builder of section 4.1.  It fails with
`EmptyInventory` when no entry besides the reserved invalid one exists and with
`RecoderConflict` when two entries receive the same code sequence. -/
def buildRecoder (policy : CompressionPolicy) (inventory : Inventory)
    (pass_through : Bool) : Except BuildError RecoderTable :=
  if inventory.all (fun e => e.reserved_invalid) then .error .EmptyInventory
  else
    let forward :=
      if pass_through then passThroughCodes inventory else compressedCodes policy inventory
    if forward.Nodup then .ok { forward := forward, inverse := inverseOf forward }
    else .error .RecoderConflict

/-- Modelled from the spec: the forward direction of a `RecoderTable`, the code sequence
of an id (empty for an id outside the table). -/
def RecoderTable.encode (t : RecoderTable) (id : Nat) : List Nat :=
  t.forward.getD id []

/-- Modelled from the spec: the inverse direction of a `RecoderTable`; `none` is the
"invalid" answer for a code sequence that no inventory entry matches. -/
def RecoderTable.decode (t : RecoderTable) (codes : List Nat) : Option Nat :=
  t.inverse.lookup codes

/-- Modelled from the spec: the size of the output alphabet, the number of distinct
codes that occur in the table. -/
def RecoderTable.alphabetSize (t : RecoderTable) : Nat :=
  t.forward.flatten.dedup.length

/-! ## Dictionary compiler (specification section 4.2) -/

/-- Modelled from the spec: the outgoing edges of a trie node (step 2 of section 4.2),
sorted by label.  An edge carries its label, the accepting flag of the node it leads to
and the edges of that node. -/
inductive TrieEdges where
  | none
  | edge (label : Nat) (accepting : Bool) (children : TrieEdges) (rest : TrieEdges)
  deriving DecidableEq, Repr

/-- Modelled from the spec: a trie, the accepting flag of its root and the root's
edges. -/
structure Trie where
  accepting : Bool
  edges : TrieEdges
  deriving DecidableEq, Repr

/-- Modelled from the spec: the fresh path for a token sequence none of whose symbols
has a node yet; only the last node accepts. -/
def TrieEdges.chain : List Nat → TrieEdges
  | [] => .none
  | c :: cs => .edge c cs.isEmpty (chain cs) .none

/-- Modelled from the spec: insertion of a non-empty token sequence below a node
(step 2 of section 4.2).  The edge for the first symbol is followed when it exists and
created in label order when it does not; the node reached by the last symbol is marked
accepting. -/
def TrieEdges.insert : TrieEdges → List Nat → TrieEdges
  | e, [] => e
  | .none, c :: cs => chain (c :: cs)
  | .edge l a ch rest, c :: cs =>
    if c = l then .edge l (a || cs.isEmpty) (ch.insert cs) rest
    else if c < l then .edge c cs.isEmpty (chain cs) (.edge l a ch rest)
    else .edge l a ch (rest.insert (c :: cs))

/-- Modelled from the spec: insertion of a token sequence into a trie; the empty
sequence ends at the root. -/
def Trie.insert (t : Trie) : List Nat → Trie
  | [] => { t with accepting := true }
  | c :: cs => { t with edges := t.edges.insert (c :: cs) }

/-- Modelled from the spec: the trie with no entries. -/
def Trie.empty : Trie := { accepting := false, edges := .none }

/-- Modelled from the spec: a node of a `DictionaryGraph` (section 3), stored in an
arena and referring to its targets by index (section 9). -/
structure Node where
  accepting : Bool
  edges : List (Nat × Nat)
  deriving DecidableEq, Repr

/-- Modelled from the spec: the `DictionaryGraph` of section 3, with its node arena,
start node and direction flag. -/
structure DictionaryGraph where
  nodes : List Node
  start : Nat
  rtl : Bool
  deriving DecidableEq, Repr

/-- Modelled from the spec: the arena form of the nodes below a trie node.  Children
are stored before their parent; the result is the edge list of the parent, with arena
indices as targets, and the extended arena. -/
def TrieEdges.flatten : TrieEdges → List Node → List (Nat × Nat) × List Node
  | .none, arena => ([], arena)
  | .edge l a ch rest, arena =>
    let below := ch.flatten arena
    let target := below.2.length
    let others := rest.flatten (below.2 ++ [{ accepting := a, edges := below.1 }])
    ((l, target) :: others.1, others.2)

/-- Modelled from the spec: the arena form of a whole trie; the root is stored last and
is the start node. -/
def Trie.flatten (t : Trie) (rtl : Bool) : DictionaryGraph :=
  let below := t.edges.flatten []
  { nodes := below.2 ++ [{ accepting := t.accepting, edges := below.1 }],
    start := below.2.length, rtl := rtl }

/-- Modelled from the spec: the first pair of distinct arena positions `i < j` that hold
identical nodes (same accepting flag, same transitions), if there is one. -/
def findDuplicate : List Node → Option (Nat × Nat)
  | [] => none
  | x :: xs =>
    if x ∈ xs then some (0, xs.indexOf x + 1)
    else (findDuplicate xs).map fun p => (p.1 + 1, p.2 + 1)

/-- Modelled from the spec: where an index points after node `j` has been merged into
node `i` and removed from the arena. -/
def redirect (i j k : Nat) : Nat :=
  if k = j then i else if j < k then k - 1 else k

/-- Modelled from the spec: one merge of step 3 of section 4.2, "merging = redirecting
indices": node `j` is removed and every reference to it becomes a reference to `i`. -/
def mergeNodes (g : DictionaryGraph) (i j : Nat) : DictionaryGraph :=
  { nodes := (g.nodes.eraseIdx j).map fun n =>
      { n with edges := n.edges.map fun e => (e.1, redirect i j e.2) },
    start := redirect i j g.start, rtl := g.rtl }

/-- Modelled from the spec: the merge loop of step 3, run for at most `fuel` merges. -/
def minimizeLoop : Nat → DictionaryGraph → DictionaryGraph
  | 0, g => g
  | fuel + 1, g =>
    match findDuplicate g.nodes with
    | Option.none => g
    | some (i, j) => minimizeLoop fuel (mergeNodes g i j)

/-- Modelled from the spec: step 3 of section 4.2, merging identical nodes until no
merge is possible.  Every merge removes a node, so as many rounds as there are nodes
reach the fixed point. -/
def minimize (g : DictionaryGraph) : DictionaryGraph :=
  minimizeLoop g.nodes.length g

/-- Modelled from the spec: step 1 of section 4.2: empty lines are dropped, repeats are
removed, and for a right-to-left language every token sequence is reversed. -/
def normalize (rtl : Bool) (lines : List (List Nat)) : List (List Nat) :=
  ((lines.filter fun l => l ≠ []).dedup).map fun l => if rtl then l.reverse else l

/-- Modelled from the spec: the first symbol of the source list that is not an id of the
inventory, with its line. -/
def findUnknown (inventorySize : Nat) : List (List Nat) → Option (Nat × List Nat)
  | [] => none
  | l :: ls =>
    match l.find? (fun c => inventorySize ≤ c) with
    | some c => some (c, l)
    | Option.none => findUnknown inventorySize ls

/-- Modelled from the spec: the Dictionary Compiler of section 4.2 for an inventory of
the given size: normalise, insert into a trie, store the trie in an arena, minimise.  A
line with a symbol outside the inventory fails the list with `UnknownSymbol`. -/
def compileDictionary (inventorySize : Nat) (rtl : Bool) (lines : List (List Nat)) :
    Except BuildError DictionaryGraph :=
  match findUnknown inventorySize lines with
  | some (c, l) => .error (.UnknownSymbol c l)
  | Option.none => .ok (minimize (((normalize rtl lines).foldl Trie.insert Trie.empty).flatten rtl))

/-- Modelled from the spec: the transition of a node on a label. -/
def Node.next (n : Node) (label : Nat) : Option Nat :=
  n.edges.lookup label

/-- Modelled from the spec: follow a label sequence from a node of the arena; the answer
is whether the walk exists and ends in an accepting node. -/
def walk (nodes : List Node) : Nat → List Nat → Bool
  | k, [] => match nodes[k]? with
    | some n => n.accepting
    | Option.none => false
  | k, c :: cs => match nodes[k]? with
    | some n => match n.next c with
      | some t => walk nodes t cs
      | Option.none => false
    | Option.none => false

/-- Modelled from the spec: the membership query of section 4.2 (exact accept) and the
accepted language of section 3: the candidate is a label sequence that leads from the
start node to an accepting node. -/
def DictionaryGraph.accepts (g : DictionaryGraph) (s : List Nat) : Bool :=
  walk g.nodes g.start s

/-! ## A concrete environment -/

/-- The inventory of the concrete scenario of the specification: `a`, `b` and the
reserved invalid entry. -/
def sampleInventory : Inventory :=
  [{ display := "a" }, { display := "b" }, { display := "", reserved_invalid := true }]

/-- A small file system and collaborators on which `main` can be run: one unicharset
file, one word list, property setters that fill in case and script, and a pipeline that
reports success. -/
def sampleEnv : Env Inventory where
  ReadFile := fun name => if name = "eng.words" then "ab\na\nba\n" else ""
  load_from_file := fun name _ => if name = "eng.unicharset" then some sampleInventory else none
  size := List.length
  SetupBasicProperties := fun _ _ u =>
    u.map fun e => if e.reserved_invalid then e else { e with is_lower := true }
  SetScriptProperties := fun _ u =>
    u.map fun e => if e.reserved_invalid then e else { e with script := "Latin" }
  CombineLangModel := fun _ => 0

/-- Flags of a complete invocation on `sampleEnv`, with only the words list given. -/
def sampleFlags : Flags :=
  { input_unicharset := "eng.unicharset", script_dir := "langdata", output_dir := "out",
    lang := "eng", words := "eng.words" }

/-- Flags of an invocation on `sampleEnv` whose unicharset file does not exist. -/
def missingFlags : Flags :=
  { input_unicharset := "nowhere.unicharset", script_dir := "langdata", output_dir := "out",
    lang := "eng", words := "eng.words" }

/-- The command line that produces `sampleFlags`. -/
def sampleArgv : List FlagArg :=
  [.input_unicharset "eng.unicharset", .script_dir "langdata", .output_dir "out",
   .lang "eng", .words "eng.words"]

/-- The arguments `CombineLangModel` is expected to receive in the run of `main` on
`sampleEnv` with `sampleFlags`. -/
def sampleArgs : CombineArgs Inventory :=
  { unicharset :=
      [{ display := "a", script := "Latin", is_lower := true },
       { display := "b", script := "Latin", is_lower := true },
       { display := "", reserved_invalid := true }],
    script_dir := "langdata", version_str := "", output_dir := "out", lang := "eng",
    pass_through_recoder := false, words := ["ab", "a", "ba"], puncs := [], numbers := [],
    lang_is_rtl := false, reader := none, writer := none }

/-- A compression policy for the examples: ids `2k` and `2k+1` share the base code `k`
and are told apart by a modifier code `0` or `1`. -/
def samplePolicy : CompressionPolicy := fun _ id => (id / 2, [id % 2])

/-- The table expected from `samplePolicy` on `sampleInventory`. -/
def sampleCompressed : RecoderTable :=
  { forward := [[0, 0], [0, 1], [1, 0]],
    inverse := [([0, 0], 0), ([0, 1], 1), ([1, 0], 2)] }

/-- The identity table expected from pass-through mode on `sampleInventory`. -/
def sampleIdentity : RecoderTable :=
  { forward := [[0], [1], [2]], inverse := [([0], 0), ([1], 1), ([2], 2)] }

/-! ## Auxiliary notions for the dictionary proofs -/

/-- The token sequences stored below a trie node: the non-empty sequences whose path
exists in the trie and ends in an accepting node. -/
def TrieEdges.accepts : TrieEdges → List Nat → Bool
  | _, [] => false
  | .none, _ :: _ => false
  | .edge l a ch rest, c :: cs =>
    if c = l then (if cs.isEmpty then a else ch.accepts cs) else rest.accepts (c :: cs)

/-- The token sequences stored in a trie. -/
def Trie.accepts (t : Trie) : List Nat → Bool
  | [] => t.accepting
  | c :: cs => t.edges.accepts (c :: cs)

/-- Every label of the edge list is greater than `b`. -/
def TrieEdges.labelsAbove (b : Nat) : TrieEdges → Prop
  | .none => True
  | .edge l _ _ rest => b < l ∧ rest.labelsAbove b

/-- The edge lists of a trie are sorted by label without repeats, at every node. -/
def TrieEdges.ordered : TrieEdges → Prop
  | .none => True
  | .edge l _ ch rest => ch.ordered ∧ rest.ordered ∧ rest.labelsAbove l

/-- The word list of the concrete scenario of the specification, `ab`, `a`, `ba`, as
token sequences over `sampleInventory` (`a` is id 0, `b` is id 1). -/
def sampleWords : List (List Nat) := [[0, 1], [0], [1, 0]]

/-- The graph expected from `sampleWords`: the two leaves of the trie are merged. -/
def sampleGraph : DictionaryGraph :=
  { nodes := [{ accepting := true, edges := [] }, { accepting := true, edges := [(1, 0)] },
      { accepting := false, edges := [(0, 0)] },
      { accepting := false, edges := [(0, 1), (1, 2)] }],
    start := 3, rtl := false }

/-- A one-line list for a right-to-left language: the line `ab`. -/
def sampleRtlWords : List (List Nat) := [[0, 1]]

/-- The graph expected from `sampleRtlWords` for a right-to-left language: the line is
stored reversed, as the path `b`, `a`. -/
def sampleRtlGraph : DictionaryGraph :=
  { nodes := [{ accepting := true, edges := [] }, { accepting := false, edges := [(0, 0)] },
      { accepting := false, edges := [(1, 1)] }],
    start := 2, rtl := true }

/-! # Theorems -/

/-! ## The program -/

theorem flagsInvalid_eq_true (FLAGS : Flags) :
    flagsInvalid FLAGS = true ↔
      (FLAGS.input_unicharset = "" ∨ FLAGS.script_dir = "" ∨ FLAGS.output_dir = "" ∨
        FLAGS.lang = "") := by
  simp [flagsInvalid, String.isEmpty_iff, or_assoc]

theorem flagsInvalid_eq_false (FLAGS : Flags) :
    flagsInvalid FLAGS = false ↔
      (FLAGS.input_unicharset ≠ "" ∧ FLAGS.script_dir ≠ "" ∧ FLAGS.output_dir ≠ "" ∧
        FLAGS.lang ≠ "") := by
  rw [← Bool.not_eq_true, flagsInvalid_eq_true]
  tauto

theorem sampleFlags_valid : flagsInvalid sampleFlags = false := by
  rw [flagsInvalid_eq_false]; decide

theorem missingFlags_valid : flagsInvalid missingFlags = false := by
  rw [flagsInvalid_eq_false]; decide

/-- C1: with the four required flags non-empty, a failed load of the unicharset makes
`main` return 1 without calling `SetupBasicProperties`, `SetScriptProperties` or
`CombineLangModel`, the only collaborator that writes output files. -/
theorem load_failure_aborts {U : Type} (env : Env U) (argv0 : String) (FLAGS : Flags)
    (hreq : FLAGS.input_unicharset ≠ "" ∧ FLAGS.script_dir ≠ "" ∧ FLAGS.output_dir ≠ "" ∧
      FLAGS.lang ≠ "")
    (hload : env.load_from_file FLAGS.input_unicharset false = none) :
    (main env argv0 FLAGS).status = 1 ∧
      (∀ r d u, Event.SetupBasicProperties r d u ∉ (main env argv0 FLAGS).trace) ∧
      (∀ dir u, Event.SetScriptProperties dir u ∉ (main env argv0 FLAGS).trace) ∧
      (∀ args, Event.CombineLangModel args ∉ (main env argv0 FLAGS).trace) := by
  have hv := (flagsInvalid_eq_false FLAGS).2 hreq
  simp [main, hv, hload]

theorem load_failure_aborts_witness :
    (main sampleEnv "combine_lang_model" missingFlags).status = 1 ∧
      (∀ r d u, Event.SetupBasicProperties r d u ∉
        (main sampleEnv "combine_lang_model" missingFlags).trace) ∧
      (∀ dir u, Event.SetScriptProperties dir u ∉
        (main sampleEnv "combine_lang_model" missingFlags).trace) ∧
      (∀ args, Event.CombineLangModel args ∉
        (main sampleEnv "combine_lang_model" missingFlags).trace) :=
  load_failure_aborts sampleEnv "combine_lang_model" missingFlags (by decide) (by decide)


/-! ### `STRING::split` -/

theorem splitScan_piece (c : Char) (rest : List Char) :
    ∀ (l cur : List Char) (out : List (List Char)), c ∉ l →
      splitScan c (l ++ c :: rest) cur out =
        splitScan c rest []
          (if l.reverse ++ cur = [] then out else (l.reverse ++ cur).reverse :: out) := by
  intro l
  induction l with
  | nil => intro cur out _; simp [splitScan]
  | cons x xs ih =>
    intro cur out h
    have hx : x ≠ c := fun e => h (by simp [e])
    have hxs : c ∉ xs := fun e => h (by simp [e])
    have step : splitScan c ((x :: xs) ++ c :: rest) cur out =
        splitScan c (xs ++ c :: rest) (x :: cur) out := by
      simp [splitScan, hx]
    rw [step, ih (x :: cur) out hxs]
    simp

theorem splitScan_lines (c : Char) :
    ∀ (lines : List (List Char)) (out : List (List Char)),
      (∀ l ∈ lines, l ≠ [] ∧ c ∉ l) →
      splitScan c ((lines.map fun l => l ++ [c]).flatten) [] out = out.reverse ++ lines := by
  intro lines
  induction lines with
  | nil => intro out _; simp [splitScan]
  | cons l ls ih =>
    intro out h
    have hl := h l (by simp)
    have hls : ∀ l ∈ ls, l ≠ [] ∧ c ∉ l := fun x hx => h x (by simp [hx])
    simp only [List.map_cons, List.flatten_cons, List.append_assoc, List.singleton_append]
    rw [splitScan_piece c _ l [] out hl.2]
    simp only [List.append_nil, List.reverse_eq_nil_iff, if_neg hl.1, List.reverse_reverse]
    rw [ih (l :: out) hls]
    simp

theorem STRING_split_empty (c : Char) : STRING_split "" c = [] := rfl

theorem STRING_split_lines (c : Char) (lines : List String)
    (h : ∀ l ∈ lines, l ≠ "" ∧ c ∉ l.data) :
    STRING_split (String.join (lines.map fun l => l ++ String.singleton c)) c = lines := by
  unfold STRING_split
  have hd : (String.join (lines.map fun l => l ++ String.singleton c)).data =
      ((lines.map String.data).map fun l => l ++ [c]).flatten := by
    simp [String.data_join, List.map_map, Function.comp_def, String.data_append]
  rw [hd, splitScan_lines c (lines.map String.data) []]
  · simp [List.map_map, Function.comp_def]
  · intro l hl
    obtain ⟨s, hs, rfl⟩ := List.mem_map.1 hl
    refine ⟨fun e => (h s hs).1 ?_, (h s hs).2⟩
    exact String.ext e


/-! ### Claims about `main` -/

/-- C2: with the four required flags non-empty and a loadable unicharset, `main` calls
`CombineLangModel` and returns its result, and each of the three lists whose read
yields the empty string is handed over as the empty list. -/
theorem unreadable_lists_are_empty {U : Type} (env : Env U) (argv0 : String)
    (FLAGS : Flags)
    (hreq : FLAGS.input_unicharset ≠ "" ∧ FLAGS.script_dir ≠ "" ∧ FLAGS.output_dir ≠ "" ∧
      FLAGS.lang ≠ "")
    (u : U) (hload : env.load_from_file FLAGS.input_unicharset false = some u) :
    ∃ args, Event.CombineLangModel args ∈ (main env argv0 FLAGS).trace ∧
      (main env argv0 FLAGS).status = env.CombineLangModel args ∧
      (env.ReadFile FLAGS.words = "" → args.words = []) ∧
      (env.ReadFile FLAGS.puncs = "" → args.puncs = []) ∧
      (env.ReadFile FLAGS.numbers = "" → args.numbers = []) := by
  have hv := (flagsInvalid_eq_false FLAGS).2 hreq
  simp only [main, hv, hload]
  refine ⟨_, by simp, rfl, ?_, ?_, ?_⟩ <;>
    · intro h
      simp only [h]
      rfl

theorem unreadable_lists_are_empty_witness :
    ∃ args, Event.CombineLangModel args ∈
        (main sampleEnv "combine_lang_model" sampleFlags).trace ∧
      (main sampleEnv "combine_lang_model" sampleFlags).status =
        sampleEnv.CombineLangModel args ∧
      (sampleEnv.ReadFile sampleFlags.words = "" → args.words = []) ∧
      (sampleEnv.ReadFile sampleFlags.puncs = "" → args.puncs = []) ∧
      (sampleEnv.ReadFile sampleFlags.numbers = "" → args.numbers = []) :=
  unreadable_lists_are_empty sampleEnv "combine_lang_model" sampleFlags (by decide)
    sampleInventory (by decide)

/-- C3: `main` takes the usage exit exactly when one of `input_unicharset`,
`script_dir`, `output_dir`, `lang` is empty; the usage exit prints the usage text and
exits with status 1 before any list is read, the unicharset is loaded or
`CombineLangModel` is called; with the four flags non-empty and every other flag at its
default there is no usage exit. -/
theorem usage_exit_iff {U : Type} (env : Env U) (argv0 : String) (FLAGS : Flags) :
    (Event.exit 1 ∈ (main env argv0 FLAGS).trace ↔
      (FLAGS.input_unicharset = "" ∨ FLAGS.script_dir = "" ∨ FLAGS.output_dir = "" ∨
        FLAGS.lang = "")) ∧
    (Event.exit 1 ∈ (main env argv0 FLAGS).trace →
      (main env argv0 FLAGS).status = 1 ∧
      (main env argv0 FLAGS).trace =
        [Event.CheckSharedLibraryVersion, Event.ParseCommandLineFlags] ++
          (usageText argv0).map Event.tprintf ++ [Event.exit 1] ∧
      (∀ name, Event.ReadFile name ∉ (main env argv0 FLAGS).trace) ∧
      (∀ name skip, Event.load_from_file name skip ∉ (main env argv0 FLAGS).trace) ∧
      (∀ args, Event.CombineLangModel args ∉ (main env argv0 FLAGS).trace)) ∧
    (∀ a b c d : String, a ≠ "" → b ≠ "" → c ≠ "" → d ≠ "" →
      Event.exit 1 ∉ (main env argv0
        { input_unicharset := a, script_dir := b, output_dir := c, lang := d }).trace) := by
  have key : ∀ F : Flags, Event.exit 1 ∈ (main env argv0 F).trace ↔ flagsInvalid F = true := by
    intro F
    cases hv : flagsInvalid F
    · cases hl : env.load_from_file F.input_unicharset false <;> simp [main, hv, hl]
    · simp [main, hv]
  refine ⟨?_, ?_, ?_⟩
  · rw [key, flagsInvalid_eq_true]
  · intro h
    have hv := (key FLAGS).1 h
    simp [main, hv, usageText]
  · intro a b c d ha hb hc hd h
    have hv := (key _).1 h
    rw [flagsInvalid_eq_true] at hv
    simp only at hv
    tauto

theorem usage_exit_iff_witness :
    (Event.exit 1 ∈ (main sampleEnv "combine_lang_model" { sampleFlags with lang := "" }).trace ↔
      (({ sampleFlags with lang := "" } : Flags).input_unicharset = "" ∨
        ({ sampleFlags with lang := "" } : Flags).script_dir = "" ∨
        ({ sampleFlags with lang := "" } : Flags).output_dir = "" ∨
        ({ sampleFlags with lang := "" } : Flags).lang = "")) ∧
    Event.exit 1 ∈ (main sampleEnv "combine_lang_model" { sampleFlags with lang := "" }).trace ∧
    Event.exit 1 ∉ (main sampleEnv "combine_lang_model"
        { input_unicharset := "eng.unicharset", script_dir := "langdata", output_dir := "out",
          lang := "eng" }).trace :=
  ⟨(usage_exit_iff sampleEnv "combine_lang_model" { sampleFlags with lang := "" }).1,
    (usage_exit_iff sampleEnv "combine_lang_model" { sampleFlags with lang := "" }).1.2
      (by decide),
    (usage_exit_iff sampleEnv "combine_lang_model" sampleFlags).2.2 _ _ _ _
      (by decide) (by decide) (by decide) (by decide)⟩


theorem parse_keeps_lang_is_rtl (argv : List FlagArg) :
    ∀ F : Flags, (∀ v, FlagArg.lang_is_rtl v ∉ argv) →
      (argv.foldl FlagArg.apply F).lang_is_rtl = F.lang_is_rtl := by
  induction argv with
  | nil => intro F _; rfl
  | cons a as ih =>
    intro F h
    have ha : ∀ v, a ≠ FlagArg.lang_is_rtl v := fun v e => h v (by simp [e])
    have has : ∀ v, FlagArg.lang_is_rtl v ∉ as := fun v e => h v (by simp [e])
    rw [List.foldl_cons, ih _ has]
    cases a <;> first | rfl | exact absurd rfl (ha _)

theorem parse_keeps_pass_through (argv : List FlagArg) :
    ∀ F : Flags, (∀ v, FlagArg.pass_through_recoder v ∉ argv) →
      (argv.foldl FlagArg.apply F).pass_through_recoder = F.pass_through_recoder := by
  induction argv with
  | nil => intro F _; rfl
  | cons a as ih =>
    intro F h
    have ha : ∀ v, a ≠ FlagArg.pass_through_recoder v := fun v e => h v (by simp [e])
    have has : ∀ v, FlagArg.pass_through_recoder v ∉ as := fun v e => h v (by simp [e])
    rw [List.foldl_cons, ih _ has]
    cases a <;> first | rfl | exact absurd rfl (ha _)

/-- Every call of `CombineLangModel` that `main` makes is the one of lines 85-89. -/
theorem combine_call_args {U : Type} (env : Env U) (argv0 : String) (FLAGS : Flags)
    (args : CombineArgs U)
    (hcall : Event.CombineLangModel args ∈ (main env argv0 FLAGS).trace) :
    flagsInvalid FLAGS = false ∧
    ∃ u, env.load_from_file FLAGS.input_unicharset false = some u ∧
      args =
        { unicharset := env.SetScriptProperties FLAGS.script_dir
            (env.SetupBasicProperties true false u),
          script_dir := FLAGS.script_dir, version_str := FLAGS.version_str,
          output_dir := FLAGS.output_dir, lang := FLAGS.lang,
          pass_through_recoder := FLAGS.pass_through_recoder,
          words := STRING_split (env.ReadFile FLAGS.words) '\n',
          puncs := STRING_split (env.ReadFile FLAGS.puncs) '\n',
          numbers := STRING_split (env.ReadFile FLAGS.numbers) '\n',
          lang_is_rtl := FLAGS.lang_is_rtl, reader := none, writer := none } := by
  cases hv : flagsInvalid FLAGS
  · cases hl : env.load_from_file FLAGS.input_unicharset false with
    | none => simp [main, hv, hl] at hcall
    | some u =>
      refine ⟨rfl, u, rfl, ?_⟩
      simpa [main, hv, hl] using hcall
  · simp [main, hv] at hcall

/-- C4: whenever `main` calls `CombineLangModel`, the version string, output directory,
language, pass-through flag and right-to-left flag it passes are the values of
`version_str`, `output_dir`, `lang`, `pass_through_recoder` and `lang_is_rtl`, the second
argument is `script_dir`, reader and writer are null, and a boolean flag that is not
given on the command line is passed as `false`. -/
theorem scalar_parameters_unchanged {U : Type} (env : Env U) (argv0 : String)
    (FLAGS : Flags) (args : CombineArgs U)
    (hcall : Event.CombineLangModel args ∈ (main env argv0 FLAGS).trace) :
    args.script_dir = FLAGS.script_dir ∧ args.version_str = FLAGS.version_str ∧
    args.output_dir = FLAGS.output_dir ∧ args.lang = FLAGS.lang ∧
    args.pass_through_recoder = FLAGS.pass_through_recoder ∧
    args.lang_is_rtl = FLAGS.lang_is_rtl ∧
    args.reader.isNone = true ∧ args.writer.isNone = true ∧
    (∀ argv, FLAGS = ParseCommandLineFlags argv →
      ((∀ v, FlagArg.lang_is_rtl v ∉ argv) → args.lang_is_rtl = false) ∧
      ((∀ v, FlagArg.pass_through_recoder v ∉ argv) → args.pass_through_recoder = false)) := by
  obtain ⟨_, u, _, rfl⟩ := combine_call_args env argv0 FLAGS args hcall
  refine ⟨rfl, rfl, rfl, rfl, rfl, rfl, rfl, rfl, ?_⟩
  intro argv hF
  subst hF
  exact ⟨fun h => parse_keeps_lang_is_rtl argv _ h,
    fun h => parse_keeps_pass_through argv _ h⟩


theorem sampleArgv_flags : ParseCommandLineFlags sampleArgv = sampleFlags := by decide

theorem sample_run_calls :
    Event.CombineLangModel sampleArgs ∈ (main sampleEnv "combine_lang_model" sampleFlags).trace := by
  have hl : sampleEnv.load_from_file sampleFlags.input_unicharset false = some sampleInventory := by
    decide
  have hargs : sampleArgs =
      { unicharset := sampleEnv.SetScriptProperties sampleFlags.script_dir
          (sampleEnv.SetupBasicProperties true false sampleInventory),
        script_dir := sampleFlags.script_dir, version_str := sampleFlags.version_str,
        output_dir := sampleFlags.output_dir, lang := sampleFlags.lang,
        pass_through_recoder := sampleFlags.pass_through_recoder,
        words := STRING_split (sampleEnv.ReadFile sampleFlags.words) '\n',
        puncs := STRING_split (sampleEnv.ReadFile sampleFlags.puncs) '\n',
        numbers := STRING_split (sampleEnv.ReadFile sampleFlags.numbers) '\n',
        lang_is_rtl := sampleFlags.lang_is_rtl, reader := none, writer := none } := by
    rfl
  simp only [main, sampleFlags_valid, hl]
  rw [hargs]
  simp

theorem scalar_parameters_unchanged_witness :
    Event.CombineLangModel sampleArgs ∈
        (main sampleEnv "combine_lang_model" sampleFlags).trace ∧
    sampleArgs.script_dir = sampleFlags.script_dir ∧
    sampleArgs.version_str = sampleFlags.version_str ∧
    sampleArgs.output_dir = sampleFlags.output_dir ∧ sampleArgs.lang = sampleFlags.lang ∧
    sampleArgs.pass_through_recoder = sampleFlags.pass_through_recoder ∧
    sampleArgs.lang_is_rtl = sampleFlags.lang_is_rtl ∧
    sampleArgs.reader.isNone = true ∧ sampleArgs.writer.isNone = true ∧
    (∀ argv, sampleFlags = ParseCommandLineFlags argv →
      ((∀ v, FlagArg.lang_is_rtl v ∉ argv) → sampleArgs.lang_is_rtl = false) ∧
      ((∀ v, FlagArg.pass_through_recoder v ∉ argv) →
        sampleArgs.pass_through_recoder = false)) :=
  ⟨sample_run_calls,
    scalar_parameters_unchanged sampleEnv "combine_lang_model" sampleFlags sampleArgs
      sample_run_calls⟩

/-- C5: every call of `CombineLangModel` receives the unicharset loaded from
`input_unicharset` after `SetupBasicProperties` (report_errors = true, decompose =
false) and then `SetScriptProperties` (with `script_dir`) have been applied to it, and
the run performs the load, the two property steps and the call in this order. -/
theorem inventory_is_finalized {U : Type} (env : Env U) (argv0 : String) (FLAGS : Flags)
    (args : CombineArgs U)
    (hcall : Event.CombineLangModel args ∈ (main env argv0 FLAGS).trace) :
    ∃ u, env.load_from_file FLAGS.input_unicharset false = some u ∧
      args.unicharset =
        env.SetScriptProperties FLAGS.script_dir (env.SetupBasicProperties true false u) ∧
      List.Sublist
        [Event.load_from_file FLAGS.input_unicharset false,
         Event.SetupBasicProperties true false u,
         Event.SetScriptProperties FLAGS.script_dir (env.SetupBasicProperties true false u),
         Event.CombineLangModel args]
        (main env argv0 FLAGS).trace := by
  obtain ⟨hv, u, hl, rfl⟩ := combine_call_args env argv0 FLAGS args hcall
  refine ⟨u, hl, rfl, ?_⟩
  simp only [main, hv, hl, List.cons_append, List.nil_append, Bool.false_eq_true, if_false]
  repeat first
    | exact List.Sublist.refl _
    | apply List.Sublist.cons₂
    | apply List.Sublist.cons

theorem inventory_is_finalized_witness :
    ∃ u, sampleEnv.load_from_file sampleFlags.input_unicharset false = some u ∧
      sampleArgs.unicharset =
        sampleEnv.SetScriptProperties sampleFlags.script_dir
          (sampleEnv.SetupBasicProperties true false u) ∧
      List.Sublist
        [Event.load_from_file sampleFlags.input_unicharset false,
         Event.SetupBasicProperties true false u,
         Event.SetScriptProperties sampleFlags.script_dir
           (sampleEnv.SetupBasicProperties true false u),
         Event.CombineLangModel sampleArgs]
        (main sampleEnv "combine_lang_model" sampleFlags).trace :=
  inventory_is_finalized sampleEnv "combine_lang_model" sampleFlags sampleArgs
    sample_run_calls


/-- C9: with the four required flags non-empty and a unicharset that loads, the exit
status of `main` is the value returned by `CombineLangModel`; in the two other cases
(usage exit, load failure) it is 1; and the status is determined by the flag values and
by what the collaborators return where `main` calls them: it depends neither on the
program name nor on any other part of the environment. -/
theorem exit_status {U : Type} (env : Env U) (argv0 : String) (FLAGS : Flags) :
    ((FLAGS.input_unicharset ≠ "" ∧ FLAGS.script_dir ≠ "" ∧ FLAGS.output_dir ≠ "" ∧
        FLAGS.lang ≠ "") →
      ∀ u, env.load_from_file FLAGS.input_unicharset false = some u →
        ∃ args, Event.CombineLangModel args ∈ (main env argv0 FLAGS).trace ∧
          (∀ other, Event.CombineLangModel other ∈ (main env argv0 FLAGS).trace →
            other = args) ∧
          (main env argv0 FLAGS).status = env.CombineLangModel args) ∧
    ((FLAGS.input_unicharset = "" ∨ FLAGS.script_dir = "" ∨ FLAGS.output_dir = "" ∨
        FLAGS.lang = "" ∨ env.load_from_file FLAGS.input_unicharset false = none) →
      (main env argv0 FLAGS).status = 1) ∧
    ((main env argv0 FLAGS).status = 1 ∨
      ∃ args, Event.CombineLangModel args ∈ (main env argv0 FLAGS).trace ∧
        (main env argv0 FLAGS).status = env.CombineLangModel args) ∧
    (∀ name, (main env name FLAGS).status = (main env argv0 FLAGS).status) ∧
    (∀ env' : Env U,
      env'.load_from_file FLAGS.input_unicharset false =
        env.load_from_file FLAGS.input_unicharset false →
      env'.ReadFile FLAGS.words = env.ReadFile FLAGS.words →
      env'.ReadFile FLAGS.puncs = env.ReadFile FLAGS.puncs →
      env'.ReadFile FLAGS.numbers = env.ReadFile FLAGS.numbers →
      env'.SetupBasicProperties = env.SetupBasicProperties →
      env'.SetScriptProperties = env.SetScriptProperties →
      env'.CombineLangModel = env.CombineLangModel →
      (main env' argv0 FLAGS).status = (main env argv0 FLAGS).status) := by
  refine ⟨?_, ?_, ?_, ?_, ?_⟩
  · intro hreq u hl
    have hv := (flagsInvalid_eq_false FLAGS).2 hreq
    simp only [main, hv, hl]
    exact ⟨_, by simp, by simp, rfl⟩
  · intro h
    cases hv : flagsInvalid FLAGS
    · have hreq := (flagsInvalid_eq_false FLAGS).1 hv
      have hl : env.load_from_file FLAGS.input_unicharset false = none := by tauto
      simp [main, hv, hl]
    · simp [main, hv]
  · cases hv : flagsInvalid FLAGS
    · cases hl : env.load_from_file FLAGS.input_unicharset false with
      | none => left; simp [main, hv, hl]
      | some u => right; simp only [main, hv, hl]; exact ⟨_, by simp, rfl⟩
    · left; simp [main, hv]
  · intro name
    cases hv : flagsInvalid FLAGS
    · cases hl : env.load_from_file FLAGS.input_unicharset false <;> simp [main, hv, hl]
    · simp [main, hv]
  · intro env' h1 h2 h3 h4 h5 h6 h7
    cases hv : flagsInvalid FLAGS
    · cases hl : env.load_from_file FLAGS.input_unicharset false with
      | none => simp [main, hv, hl, h1]
      | some u => simp only [main, hv, hl, h1, h2, h3, h4, h5, h6, h7]; rfl
    · simp [main, hv]

theorem exit_status_witness :
    (∃ args, Event.CombineLangModel args ∈
        (main sampleEnv "combine_lang_model" sampleFlags).trace ∧
      (∀ other, Event.CombineLangModel other ∈
          (main sampleEnv "combine_lang_model" sampleFlags).trace → other = args) ∧
      (main sampleEnv "combine_lang_model" sampleFlags).status =
        sampleEnv.CombineLangModel args) ∧
    (main sampleEnv "combine_lang_model" missingFlags).status = 1 :=
  ⟨(exit_status sampleEnv "combine_lang_model" sampleFlags).1 (by decide)
      sampleInventory (by decide),
    (exit_status sampleEnv "combine_lang_model" missingFlags).2.1
      (Or.inr (Or.inr (Or.inr (Or.inr (by decide)))))⟩

/-- C10: the `words`, `puncs` and `numbers` arguments of `CombineLangModel` are the
contents of the files named by the `words`, `puncs` and `numbers` flags, split at the
newline character, in this positional order; a file made of lines is handed over as
these lines in file order; and changing one of the three flags changes only the
corresponding list argument. -/
theorem lists_not_cross_wired {U : Type} (env : Env U) (argv0 : String) (FLAGS : Flags)
    (args : CombineArgs U)
    (hcall : Event.CombineLangModel args ∈ (main env argv0 FLAGS).trace) :
    args.words = STRING_split (env.ReadFile FLAGS.words) '\n' ∧
    args.puncs = STRING_split (env.ReadFile FLAGS.puncs) '\n' ∧
    args.numbers = STRING_split (env.ReadFile FLAGS.numbers) '\n' ∧
    (∀ lines : List String, (∀ l ∈ lines, l ≠ "" ∧ '\n' ∉ l.data) →
      (env.ReadFile FLAGS.words = String.join (lines.map fun l => l ++ "\n") →
        args.words = lines) ∧
      (env.ReadFile FLAGS.puncs = String.join (lines.map fun l => l ++ "\n") →
        args.puncs = lines) ∧
      (env.ReadFile FLAGS.numbers = String.join (lines.map fun l => l ++ "\n") →
        args.numbers = lines)) ∧
    (∀ name other,
      (Event.CombineLangModel other ∈ (main env argv0 { FLAGS with words := name }).trace →
        other = { args with words := STRING_split (env.ReadFile name) '\n' }) ∧
      (Event.CombineLangModel other ∈ (main env argv0 { FLAGS with puncs := name }).trace →
        other = { args with puncs := STRING_split (env.ReadFile name) '\n' }) ∧
      (Event.CombineLangModel other ∈ (main env argv0 { FLAGS with numbers := name }).trace →
        other = { args with numbers := STRING_split (env.ReadFile name) '\n' })) := by
  obtain ⟨_, u, hl, rfl⟩ := combine_call_args env argv0 FLAGS args hcall
  refine ⟨rfl, rfl, rfl, ?_, ?_⟩
  · intro lines hlines
    have key := STRING_split_lines '\n' lines hlines
    have hs : String.singleton '\n' = "\n" := rfl
    rw [hs] at key
    refine ⟨?_, ?_, ?_⟩ <;>
      · intro h
        simp only [h]
        exact key
  · intro name other
    refine ⟨?_, ?_, ?_⟩ <;>
      · intro h
        obtain ⟨_, u', hl', rfl⟩ := combine_call_args env argv0 _ other h
        simp only at hl'
        rw [hl] at hl'
        cases hl'
        rfl

theorem lists_not_cross_wired_witness :
    sampleArgs.words = ["ab", "a", "ba"] ∧ sampleArgs.puncs = [] ∧ sampleArgs.numbers = [] ∧
    (∀ other, Event.CombineLangModel other ∈
        (main sampleEnv "combine_lang_model" { sampleFlags with puncs := "eng.words" }).trace →
      other = { sampleArgs with puncs := ["ab", "a", "ba"] }) :=
  have h := lists_not_cross_wired sampleEnv "combine_lang_model" sampleFlags sampleArgs
    sample_run_calls
  ⟨(h.2.2.2.1 ["ab", "a", "ba"] (by decide)).1 (by decide), h.2.1, h.2.2.1,
    fun other => (h.2.2.2.2 "eng.words" other).2.1⟩


/-! ## The recoder -/

theorem lookup_zip_range' {α : Type} [BEq α] [LawfulBEq α] :
    ∀ (l : List α) (s i : Nat) (h : i < l.length), l.Nodup →
      (l.zip (List.range' s l.length)).lookup (l.get ⟨i, h⟩) = some (s + i) := by
  intro l
  induction l with
  | nil => intro s i h; simp at h
  | cons x xs ih =>
    intro s i h hnd
    have hx : x ∉ xs := (List.nodup_cons.1 hnd).1
    have hxs : xs.Nodup := (List.nodup_cons.1 hnd).2
    cases i with
    | zero => simp [List.range'_succ, List.lookup_cons]
    | succ i =>
      have hi : i < xs.length := by simpa using h
      have hne : (xs.get ⟨i, hi⟩ == x) = false := by
        apply beq_false_of_ne
        intro e
        exact hx (e ▸ List.get_mem xs i hi)
      have := ih (s + 1) i hi hxs
      simp only [List.length_cons, List.range'_succ, List.zip_cons_cons, List.get_cons_succ,
        List.lookup_cons, hne]
      rw [this]
      congr 1
      omega

theorem decode_inverseOf (forward : List (List Nat)) (hnd : forward.Nodup) (c : Nat)
    (h : c < forward.length) :
    (inverseOf forward).lookup (forward.getD c []) = some c := by
  have := lookup_zip_range' forward 0 c h hnd
  rw [List.range'_eq_map_range] at this
  simp only [Nat.zero_add, List.map_id'] at this
  have hg : forward.getD c [] = forward.get ⟨c, h⟩ := by
    simp [List.getD_eq_getElem?_getD, List.getElem?_eq_getElem h]
  rw [inverseOf, hg]
  simpa using this

theorem buildRecoder_ok (policy : CompressionPolicy) (inventory : Inventory)
    (pass_through : Bool) (table : RecoderTable)
    (h : buildRecoder policy inventory pass_through = .ok table) :
    table.forward =
        (if pass_through then passThroughCodes inventory
          else compressedCodes policy inventory) ∧
      table.forward.Nodup ∧ table.inverse = inverseOf table.forward ∧
      table.forward.length = inventory.length := by
  simp only [buildRecoder] at h
  by_cases he : (inventory.all fun e => e.reserved_invalid) = true
  · rw [if_pos he] at h
    cases h
  · rw [if_neg he] at h
    by_cases hnd : (if pass_through then passThroughCodes inventory
        else compressedCodes policy inventory).Nodup
    · rw [if_pos hnd] at h
      cases h
      refine ⟨rfl, hnd, rfl, ?_⟩
      cases pass_through <;> simp [passThroughCodes, compressedCodes]
    · rw [if_neg hnd] at h
      cases h

/-- C6: for every inventory and either mode, the table the Recoder Builder produces is
lossless: `decode (encode c) = c` for every CharacterEntry id `c` of the inventory, and
two distinct ids never have the same code sequence. -/
theorem recoder_lossless (policy : CompressionPolicy) (inventory : Inventory)
    (pass_through : Bool) (table : RecoderTable)
    (h : buildRecoder policy inventory pass_through = .ok table) :
    (∀ c, c < inventory.length → table.decode (table.encode c) = some c) ∧
    (∀ c d, c < inventory.length → d < inventory.length →
      table.encode c = table.encode d → c = d) := by
  obtain ⟨_, hnd, hinv, hlen⟩ := buildRecoder_ok policy inventory pass_through table h
  have dec : ∀ c, c < inventory.length → table.decode (table.encode c) = some c := by
    intro c hc
    unfold RecoderTable.decode RecoderTable.encode
    rw [hinv]
    exact decode_inverseOf table.forward hnd c (hlen ▸ hc)
  refine ⟨dec, ?_⟩
  intro c d hc hd e
  have h1 := dec c hc
  rw [e, dec d hd] at h1
  exact (Option.some.inj h1).symm


theorem recoder_lossless_witness :
    buildRecoder samplePolicy sampleInventory false = .ok sampleCompressed ∧
    (∀ c, c < sampleInventory.length →
      sampleCompressed.decode (sampleCompressed.encode c) = some c) ∧
    (∀ c d, c < sampleInventory.length → d < sampleInventory.length →
      sampleCompressed.encode c = sampleCompressed.encode d → c = d) :=
  ⟨rfl, recoder_lossless samplePolicy sampleInventory false sampleCompressed rfl⟩

theorem flatten_map_singleton {α : Type} (l : List α) :
    (l.map fun x => [x]).flatten = l := by
  induction l with
  | nil => rfl
  | cons x xs ih => simp [ih]

theorem passThroughCodes_nodup (inventory : Inventory) :
    (passThroughCodes inventory).Nodup := by
  unfold passThroughCodes
  apply List.Nodup.map _ (List.nodup_range _)
  intro a b e
  simpa using e

theorem passThroughCodes_getD (inventory : Inventory) (c : Nat) (h : c < inventory.length) :
    (passThroughCodes inventory).getD c [] = [c] := by
  simp [passThroughCodes, List.getD_eq_getElem?_getD, h]

/-- C7: in pass-through mode the recoder is the identity on the unicharset: every
CharacterEntry id maps to the single code equal to the id, that code decodes to the id,
the output alphabet has as many codes as the inventory has entries, and the builder
succeeds on every inventory with a usable entry. -/
theorem pass_through_identity (policy : CompressionPolicy) (inventory : Inventory) :
    (∀ table, buildRecoder policy inventory true = .ok table →
      (∀ c, c < inventory.length → table.encode c = [c]) ∧
      (∀ c, c < inventory.length → table.decode [c] = some c) ∧
      table.alphabetSize = inventory.length) ∧
    ((inventory.all fun e => e.reserved_invalid) = false →
      ∃ table, buildRecoder policy inventory true = .ok table) := by
  constructor
  · intro table h
    obtain ⟨hf, hnd, hinv, hlen⟩ := buildRecoder_ok policy inventory true table h
    simp only [if_true] at hf
    have enc : ∀ c, c < inventory.length → table.encode c = [c] := by
      intro c hc
      rw [RecoderTable.encode, hf]
      exact passThroughCodes_getD inventory c hc
    refine ⟨enc, ?_, ?_⟩
    · intro c hc
      have := decode_inverseOf table.forward hnd c (hlen ▸ hc)
      rw [← hinv] at this
      have e := enc c hc
      rw [RecoderTable.encode] at e
      rw [e] at this
      exact this
    · rw [RecoderTable.alphabetSize, hf, passThroughCodes, flatten_map_singleton,
        List.Nodup.dedup (List.nodup_range _), List.length_range]
  · intro he
    refine ⟨RecoderTable.mk (passThroughCodes inventory)
      (inverseOf (passThroughCodes inventory)), ?_⟩
    simp only [buildRecoder, he, if_true, Bool.false_eq_true, if_false,
      if_pos (passThroughCodes_nodup inventory)]

theorem pass_through_identity_witness :
    buildRecoder samplePolicy sampleInventory true = .ok sampleIdentity ∧
    (∀ c, c < sampleInventory.length → sampleIdentity.encode c = [c]) ∧
    (∀ c, c < sampleInventory.length → sampleIdentity.decode [c] = some c) ∧
    sampleIdentity.alphabetSize = 3 :=
  ⟨rfl, (pass_through_identity samplePolicy sampleInventory).1 sampleIdentity rfl⟩


/-! ## The dictionary compiler -/

/-! ### Step 2: the trie -/

theorem chain_accepts (w s : List Nat) :
    (TrieEdges.chain w).accepts s = true ↔ s = w ∧ s ≠ [] := by
  induction w generalizing s with
  | nil =>
    cases s with
    | nil => simp [TrieEdges.chain, TrieEdges.accepts]
    | cons c cs => simp [TrieEdges.chain, TrieEdges.accepts]
  | cons x xs ih =>
    cases s with
    | nil => simp [TrieEdges.chain, TrieEdges.accepts]
    | cons c cs =>
      simp only [TrieEdges.chain, TrieEdges.accepts]
      by_cases hc : c = x
      · subst hc
        simp only [if_true]
        by_cases hcs : cs = []
        · subst hcs
          cases xs <;> simp
        · have : cs.isEmpty = false := by cases cs <;> simp_all
          simp only [this, Bool.false_eq_true, if_false, ih cs]
          simp [hcs]
      · simp [hc, TrieEdges.accepts]

theorem chain_ordered (w : List Nat) : (TrieEdges.chain w).ordered := by
  induction w with
  | nil => simp [TrieEdges.chain, TrieEdges.ordered]
  | cons x xs ih => simp [TrieEdges.chain, TrieEdges.ordered, TrieEdges.labelsAbove, ih]

theorem labelsAbove_mono {b b' : Nat} (h : b' ≤ b) :
    ∀ e : TrieEdges, e.labelsAbove b → e.labelsAbove b' := by
  intro e
  induction e with
  | none => intro _; trivial
  | edge l a ch rest _ ihr =>
    intro hb
    exact ⟨Nat.lt_of_le_of_lt h hb.1, ihr hb.2⟩

theorem labelsAbove_rejects {c : Nat} (cs : List Nat) :
    ∀ e : TrieEdges, e.labelsAbove c → e.accepts (c :: cs) = false := by
  intro e
  induction e with
  | none => intro _; rfl
  | edge l a ch rest _ ihr =>
    intro hb
    have hne : c ≠ l := Nat.ne_of_lt hb.1
    simp only [TrieEdges.accepts, if_neg hne]
    exact ihr hb.2

theorem insert_labelsAbove {b c : Nat} (hbc : b < c) (cs : List Nat) :
    ∀ e : TrieEdges, e.labelsAbove b → (e.insert (c :: cs)).labelsAbove b := by
  intro e
  induction e with
  | none => intro _; simp [TrieEdges.insert, TrieEdges.chain, TrieEdges.labelsAbove, hbc]
  | edge l a ch rest _ ihr =>
    intro hb
    simp only [TrieEdges.insert]
    split_ifs with h1 h2
    · exact ⟨hb.1, hb.2⟩
    · exact ⟨hbc, hb.1, hb.2⟩
    · exact ⟨hb.1, ihr hb.2⟩

theorem insert_ordered :
    ∀ (e : TrieEdges) (w : List Nat), e.ordered → (e.insert w).ordered := by
  intro e
  induction e with
  | none =>
    intro w _
    cases w with
    | nil => simp [TrieEdges.insert, TrieEdges.ordered]
    | cons c cs => simpa [TrieEdges.insert] using chain_ordered (c :: cs)
  | edge l a ch rest ihc ihr =>
    intro w ho
    cases w with
    | nil => simpa [TrieEdges.insert] using ho
    | cons c cs =>
      simp only [TrieEdges.insert]
      split_ifs with h1 h2
      · exact ⟨ihc cs ho.1, ho.2.1, ho.2.2⟩
      · exact ⟨chain_ordered cs, ho, h2, labelsAbove_mono (Nat.le_of_lt h2) rest ho.2.2⟩
      · have hlc : l < c := by omega
        exact ⟨ho.1, ihr (c :: cs) ho.2.1, insert_labelsAbove hlc cs rest ho.2.2⟩


theorem isEmpty_eq_true_iff (l : List Nat) : l.isEmpty = true ↔ l = [] := by
  cases l <;> simp

theorem insert_accepts :
    ∀ (e : TrieEdges) (w s : List Nat), e.ordered →
      ((e.insert w).accepts s = true ↔ (e.accepts s = true ∨ (s = w ∧ s ≠ []))) := by
  intro e
  induction e with
  | none =>
    intro w s _
    cases w with
    | nil => cases s <;> simp [TrieEdges.insert, TrieEdges.accepts]
    | cons c cs =>
      have h := chain_accepts (c :: cs) s
      cases s with
      | nil => simp [TrieEdges.insert, TrieEdges.accepts]
      | cons d ds => simpa [TrieEdges.insert, TrieEdges.accepts] using h
  | edge l a ch rest ihc ihr =>
    intro w s ho
    cases w with
    | nil =>
      simp only [TrieEdges.insert]
      constructor
      · exact Or.inl
      · rintro (h | ⟨h1, h2⟩)
        · exact h
        · exact absurd h1 h2
    | cons c cs =>
      cases s with
      | nil =>
        simp only [TrieEdges.insert]
        split_ifs <;> simp [TrieEdges.accepts]
      | cons d ds =>
        simp only [TrieEdges.insert]
        split_ifs with h1 h2
        · subst h1
          simp only [TrieEdges.accepts]
          by_cases hd : d = c
          · subst hd
            simp only [if_true]
            by_cases hds : ds = []
            · subst hds
              simp [isEmpty_eq_true_iff]
            · have e1 : ds.isEmpty = false := by cases ds <;> simp_all
              simp only [e1, Bool.false_eq_true, if_false, ihc cs ds ho.1]
              simp [hds]
          · simp [hd]
        · have habove : (TrieEdges.edge l a ch rest).labelsAbove c :=
            ⟨h2, labelsAbove_mono (Nat.le_of_lt h2) rest ho.2.2⟩
          by_cases hd : d = c
          · subst hd
            rw [labelsAbove_rejects ds _ habove]
            simp only [TrieEdges.accepts, if_true]
            by_cases hds : ds = []
            · subst hds
              simp [isEmpty_eq_true_iff]
            · have e1 : ds.isEmpty = false := by cases ds <;> simp_all
              simp only [e1, Bool.false_eq_true, if_false, chain_accepts cs ds]
              simp [hds]
          · have step : (TrieEdges.edge c cs.isEmpty (TrieEdges.chain cs)
                (TrieEdges.edge l a ch rest)).accepts (d :: ds) =
                (TrieEdges.edge l a ch rest).accepts (d :: ds) := by
              rw [TrieEdges.accepts, if_neg hd]
            rw [step]
            simp [hd]
        · by_cases hd : d = l
          · subst hd
            have hne : ¬ d = c := fun e => h1 e.symm
            simp [TrieEdges.accepts, hne]
          · have step1 : (TrieEdges.edge l a ch (rest.insert (c :: cs))).accepts (d :: ds) =
                (rest.insert (c :: cs)).accepts (d :: ds) := by
              rw [TrieEdges.accepts, if_neg hd]
            have step2 : (TrieEdges.edge l a ch rest).accepts (d :: ds) =
                rest.accepts (d :: ds) := by
              rw [TrieEdges.accepts, if_neg hd]
            rw [step1, step2]
            exact ihr (c :: cs) (d :: ds) ho.2.1

theorem trie_insert_accepts (t : Trie) (w s : List Nat) (ho : t.edges.ordered) :
    (t.insert w).accepts s = true ↔ (t.accepts s = true ∨ s = w) := by
  cases w with
  | nil =>
    cases s with
    | nil => simp [Trie.insert, Trie.accepts]
    | cons d ds => simp [Trie.insert, Trie.accepts]
  | cons c cs =>
    cases s with
    | nil => simp [Trie.insert, Trie.accepts]
    | cons d ds =>
      simp only [Trie.insert, Trie.accepts]
      rw [insert_accepts t.edges (c :: cs) (d :: ds) ho]
      simp

theorem trie_insert_ordered (t : Trie) (w : List Nat) (ho : t.edges.ordered) :
    (t.insert w).edges.ordered := by
  cases w with
  | nil => exact ho
  | cons c cs => exact insert_ordered t.edges (c :: cs) ho

theorem foldl_insert_accepts (ws : List (List Nat)) :
    ∀ (t : Trie) (s : List Nat), t.edges.ordered →
      ((ws.foldl Trie.insert t).accepts s = true ↔ (t.accepts s = true ∨ s ∈ ws)) := by
  induction ws with
  | nil => intro t s _; simp
  | cons w ws ih =>
    intro t s ho
    rw [List.foldl_cons, ih (t.insert w) s (trie_insert_ordered t w ho),
      trie_insert_accepts t w s ho]
    simp [or_assoc]


/-! ### The arena form of the trie -/

/-- What a parent with the given edge list answers for a non-empty label sequence. -/
theorem walk_cons (nodes : List Node) (k c : Nat) (cs : List Nat) (n : Node)
    (h : nodes[k]? = some n) :
    walk nodes k (c :: cs) =
      (match n.edges.lookup c with
        | some t => walk nodes t cs
        | Option.none => false) := by
  simp only [walk, h, Node.next]

theorem walk_nil (nodes : List Node) (k : Nat) (n : Node) (h : nodes[k]? = some n) :
    walk nodes k [] = n.accepting := by
  simp only [walk, h]

theorem getElem?_append_cons_length {α : Type} (xs : List α) (x : α) (ys : List α) :
    (xs ++ x :: ys)[xs.length]? = some x := by
  induction xs with
  | nil => simp
  | cons z zs ih => simpa using ih

theorem flatten_spec :
    ∀ (e : TrieEdges) (arena : List Node),
      ∃ ext, (e.flatten arena).2 = arena ++ ext ∧
        ∀ (more : List Node) (c : Nat) (cs : List Nat),
          (match (e.flatten arena).1.lookup c with
            | some t => walk ((e.flatten arena).2 ++ more) t cs
            | Option.none => false) = e.accepts (c :: cs) := by
  intro e
  induction e with
  | none =>
    intro arena
    exact ⟨[], by simp [TrieEdges.flatten], by intros; simp [TrieEdges.flatten, TrieEdges.accepts]⟩
  | edge l a ch rest ihc ihr =>
    intro arena
    obtain ⟨ext1, hext1, hsem1⟩ := ihc arena
    obtain ⟨ext2, hext2, hsem2⟩ :=
      ihr ((ch.flatten arena).2 ++ [{ accepting := a, edges := (ch.flatten arena).1 }])
    refine ⟨ext1 ++ [{ accepting := a, edges := (ch.flatten arena).1 }] ++ ext2, ?_, ?_⟩
    · show (rest.flatten ((ch.flatten arena).2 ++
          [{ accepting := a, edges := (ch.flatten arena).1 }])).2 = _
      rw [hext2, hext1]
      simp only [List.append_assoc]
    · intro more c cs
      simp only [TrieEdges.flatten, List.lookup_cons, TrieEdges.accepts]
      by_cases hc : c = l
      · subst hc
        simp only [beq_self_eq_true, if_true]
        have hnode : ((rest.flatten ((ch.flatten arena).2 ++
            [{ accepting := a, edges := (ch.flatten arena).1 }])).2 ++ more)[
              (ch.flatten arena).2.length]? =
            some { accepting := a, edges := (ch.flatten arena).1 } := by
          rw [hext2]
          simp only [List.append_assoc, List.singleton_append]
          exact getElem?_append_cons_length _ _ _
        cases cs with
        | nil => simp [walk_nil _ _ _ hnode]
        | cons d ds =>
          rw [walk_cons _ _ _ _ _ hnode]
          simp only [List.isEmpty_cons, Bool.false_eq_true, if_false]
          have := hsem1 ([{ accepting := a, edges := (ch.flatten arena).1 }] ++ ext2 ++ more) d ds
          rw [← this, hext2]
          simp only [List.append_assoc]
      · have hb : (c == l) = false := beq_false_of_ne hc
        simp only [hb, if_neg hc]
        exact hsem2 more c cs

theorem trie_flatten_accepts (t : Trie) (rtl : Bool) (s : List Nat) :
    walk (t.flatten rtl).nodes (t.flatten rtl).start s = t.accepts s := by
  obtain ⟨ext, _, hsem⟩ := flatten_spec t.edges []
  have hnode : (t.flatten rtl).nodes[(t.flatten rtl).start]? =
      some { accepting := t.accepting, edges := (t.edges.flatten []).1 } := by
    exact getElem?_append_cons_length _ _ _
  cases s with
  | nil => rw [walk_nil _ _ _ hnode]; rfl
  | cons c cs =>
    rw [walk_cons _ _ _ _ _ hnode]
    exact hsem [{ accepting := t.accepting, edges := (t.edges.flatten []).1 }] c cs


/-! ### Step 3: merging identical nodes -/

theorem findDuplicate_spec :
    ∀ (nodes : List Node) (i j : Nat), findDuplicate nodes = some (i, j) →
      i < j ∧ j < nodes.length ∧ nodes[i]? = nodes[j]? := by
  intro nodes
  induction nodes with
  | nil => intro i j h; simp [findDuplicate] at h
  | cons x xs ih =>
    intro i j h
    simp only [findDuplicate] at h
    by_cases hx : x ∈ xs
    · rw [if_pos hx] at h
      obtain ⟨rfl, rfl⟩ := Prod.mk.inj (Option.some.inj h)
      refine ⟨Nat.succ_pos _, ?_, ?_⟩
      · simpa using List.indexOf_lt_length.2 hx
      · simp [List.getElem?_indexOf hx]
    · rw [if_neg hx] at h
      cases hd : findDuplicate xs with
      | none => simp [hd] at h
      | some p =>
        obtain ⟨i', j'⟩ := p
        simp only [hd, Option.map_some', Option.some.injEq, Prod.mk.injEq] at h
        obtain ⟨rfl, rfl⟩ := h
        obtain ⟨h1, h2, h3⟩ := ih i' j' hd
        exact ⟨by omega, by simpa using h2, by simpa using h3⟩

theorem findDuplicate_none :
    ∀ nodes : List Node, findDuplicate nodes = none → nodes.Nodup := by
  intro nodes
  induction nodes with
  | nil => intro _; exact List.nodup_nil
  | cons x xs ih =>
    intro h
    simp only [findDuplicate] at h
    by_cases hx : x ∈ xs
    · rw [if_pos hx] at h
      cases h
    · rw [if_neg hx] at h
      cases hd : findDuplicate xs with
      | none => exact List.nodup_cons.2 ⟨hx, ih hd⟩
      | some p => simp [hd] at h

theorem lookup_map_target (f : Nat → Nat) (c : Nat) :
    ∀ es : List (Nat × Nat),
      (es.map fun e => (e.1, f e.2)).lookup c = (es.lookup c).map f := by
  intro es
  induction es with
  | nil => rfl
  | cons e es ih =>
    obtain ⟨l, t⟩ := e
    simp only [List.map_cons, List.lookup_cons]
    cases h : c == l
    · simpa using ih
    · simp

theorem mergeNodes_get (g : DictionaryGraph) (i j : Nat) (hij : i < j)
    (hj : j < g.nodes.length) (heq : g.nodes[i]? = g.nodes[j]?) (k : Nat) :
    (mergeNodes g i j).nodes[redirect i j k]? =
      (g.nodes[k]?).map fun n =>
        { n with edges := n.edges.map fun e => (e.1, redirect i j e.2) } := by
  simp only [mergeNodes, List.getElem?_map, List.getElem?_eraseIdx, redirect]
  congr 1
  by_cases h1 : k = j
  · subst h1
    simp [hij, heq]
  · by_cases h2 : j < k
    · have h3 : ¬ k - 1 < j := by omega
      have h4 : k - 1 + 1 = k := by omega
      simp [h1, h2, h3, h4]
    · have h3 : k < j := by omega
      simp [h1, h2, h3]

theorem mergeNodes_walk (g : DictionaryGraph) (i j : Nat) (hij : i < j)
    (hj : j < g.nodes.length) (heq : g.nodes[i]? = g.nodes[j]?) :
    ∀ (s : List Nat) (k : Nat),
      walk (mergeNodes g i j).nodes (redirect i j k) s = walk g.nodes k s := by
  intro s
  induction s with
  | nil =>
    intro k
    have hk := mergeNodes_get g i j hij hj heq k
    cases hn : g.nodes[k]? with
    | none => rw [hn] at hk; simp [walk, hk, hn]
    | some n => rw [hn] at hk; simp [walk, hk, hn]
  | cons c cs ih =>
    intro k
    have hk := mergeNodes_get g i j hij hj heq k
    cases hn : g.nodes[k]? with
    | none => rw [hn] at hk; simp [walk, hk, hn]
    | some n =>
      rw [hn] at hk
      rw [walk_cons _ _ _ _ _ hk, walk_cons _ _ _ _ _ hn]
      simp only [lookup_map_target]
      cases n.edges.lookup c with
      | none => rfl
      | some t => exact ih t

theorem mergeNodes_accepts (g : DictionaryGraph) (i j : Nat) (hij : i < j)
    (hj : j < g.nodes.length) (heq : g.nodes[i]? = g.nodes[j]?) (s : List Nat) :
    (mergeNodes g i j).accepts s = g.accepts s := by
  unfold DictionaryGraph.accepts
  exact mergeNodes_walk g i j hij hj heq _ g.start

theorem minimizeLoop_accepts :
    ∀ (fuel : Nat) (g : DictionaryGraph) (s : List Nat),
      (minimizeLoop fuel g).accepts s = g.accepts s := by
  intro fuel
  induction fuel with
  | zero => intro g s; rfl
  | succ fuel ih =>
    intro g s
    cases hd : findDuplicate g.nodes with
    | none => simp [minimizeLoop, hd]
    | some p =>
      obtain ⟨i, j⟩ := p
      obtain ⟨h1, h2, h3⟩ := findDuplicate_spec g.nodes i j hd
      simp only [minimizeLoop, hd]
      rw [ih, mergeNodes_accepts g i j h1 h2 h3]

theorem minimizeLoop_fixed_point :
    ∀ (fuel : Nat) (g : DictionaryGraph), g.nodes.length ≤ fuel →
      findDuplicate (minimizeLoop fuel g).nodes = none := by
  intro fuel
  induction fuel with
  | zero =>
    intro g h
    have : g.nodes = [] := List.eq_nil_of_length_eq_zero (Nat.le_zero.1 h)
    simp [minimizeLoop, this, findDuplicate]
  | succ fuel ih =>
    intro g h
    cases hd : findDuplicate g.nodes with
    | none => simp [minimizeLoop, hd]
    | some p =>
      obtain ⟨i, j⟩ := p
      obtain ⟨_, h2, _⟩ := findDuplicate_spec g.nodes i j hd
      simp only [minimizeLoop, hd]
      apply ih
      simp only [mergeNodes, List.length_map, List.length_eraseIdx, if_pos h2]
      omega

/-- The merge loop of `minimize` stops only when no two arena positions hold identical
nodes, and it keeps the language of the graph. -/
theorem minimize_spec (g : DictionaryGraph) :
    (minimize g).nodes.Nodup ∧ ∀ s, (minimize g).accepts s = g.accepts s :=
  ⟨findDuplicate_none _ (minimizeLoop_fixed_point _ g (Nat.le_refl _)),
    fun s => minimizeLoop_accepts _ g s⟩


/-! ### Steps 1 to 3 together -/

theorem mem_normalize (rtl : Bool) (lines : List (List Nat)) (s : List Nat) :
    s ∈ normalize rtl lines ↔ (s ≠ [] ∧ (if rtl then s.reverse else s) ∈ lines) := by
  cases rtl
  · simp [normalize, List.mem_dedup, List.mem_filter, and_comm]
  · simp only [normalize, if_true, List.mem_map, List.mem_dedup, List.mem_filter]
    constructor
    · rintro ⟨l, ⟨hl, hne⟩, hrev⟩
      subst hrev
      refine ⟨?_, by simpa using hl⟩
      have hne' : l ≠ [] := by simpa using hne
      simpa using hne'
    · rintro ⟨hne, hs⟩
      refine ⟨s.reverse, ⟨hs, ?_⟩, List.reverse_reverse s⟩
      simpa using hne

theorem minimizeLoop_rtl :
    ∀ (fuel : Nat) (g : DictionaryGraph), (minimizeLoop fuel g).rtl = g.rtl := by
  intro fuel
  induction fuel with
  | zero => intro g; rfl
  | succ fuel ih =>
    intro g
    cases hd : findDuplicate g.nodes with
    | none => simp [minimizeLoop, hd]
    | some p =>
      simp only [minimizeLoop, hd]
      rw [ih]
      rfl

theorem findUnknown_none (inventorySize : Nat) :
    ∀ lines : List (List Nat), (∀ l ∈ lines, ∀ c ∈ l, c < inventorySize) →
      findUnknown inventorySize lines = none := by
  intro lines
  induction lines with
  | nil => intro _; rfl
  | cons l ls ih =>
    intro h
    have hl : l.find? (fun c => decide (inventorySize ≤ c)) = none := by
      rw [List.find?_eq_none]
      intro c hc
      have := h l (by simp) c hc
      simp only [decide_eq_true_eq]
      omega
    simp only [findUnknown, hl]
    exact ih fun x hx => h x (by simp [hx])

theorem compileDictionary_ok (inventorySize : Nat) (rtl : Bool) (lines : List (List Nat))
    (g : DictionaryGraph) (h : compileDictionary inventorySize rtl lines = .ok g) :
    g = minimize (((normalize rtl lines).foldl Trie.insert Trie.empty).flatten rtl) := by
  unfold compileDictionary at h
  cases hu : findUnknown inventorySize lines with
  | none =>
    rw [hu] at h
    exact (Except.ok.inj h).symm
  | some p =>
    rw [hu] at h
    cases h

theorem compiled_accepts (inventorySize : Nat) (rtl : Bool) (lines : List (List Nat))
    (g : DictionaryGraph) (h : compileDictionary inventorySize rtl lines = .ok g)
    (s : List Nat) :
    g.accepts s = true ↔ (s ≠ [] ∧ (if rtl then s.reverse else s) ∈ lines) := by
  rw [compileDictionary_ok inventorySize rtl lines g h, (minimize_spec _).2 s]
  unfold DictionaryGraph.accepts
  rw [trie_flatten_accepts, foldl_insert_accepts _ _ _ (by trivial), mem_normalize]
  have he : Trie.empty.accepts s = false := by
    cases s <;> rfl
  simp [he]

/-- C8 (amended): a source list whose symbols all belong to the inventory compiles, and
the label sequences the compiled DictionaryGraph accepts are exactly the non-empty lines
of the list when the language is written left to right, and exactly the reversals of
the non-empty lines when it is written right to left.  In both cases two lists with the
same lines, in any order and with any repeats, give graphs that accept the same
sequences, and every other sequence is rejected, among them the empty one and every
proper prefix or extension of an accepted sequence that is not stored itself. -/
theorem dictionary_language_equivalence (inventorySize : Nat) (rtl : Bool)
    (lines : List (List Nat)) :
    ((∀ l ∈ lines, ∀ c ∈ l, c < inventorySize) →
      ∃ g, compileDictionary inventorySize rtl lines = .ok g) ∧
    (∀ g, compileDictionary inventorySize rtl lines = .ok g →
      (rtl = false → ∀ s, g.accepts s = true ↔ (s ≠ [] ∧ s ∈ lines)) ∧
      (rtl = true → ∀ s, g.accepts s = true ↔ (s ≠ [] ∧ s.reverse ∈ lines)) ∧
      (∀ lines' g', compileDictionary inventorySize rtl lines' = .ok g' →
        (∀ l, l ∈ lines' ↔ l ∈ lines) → ∀ s, g'.accepts s = g.accepts s) ∧
      (∀ s, (if rtl then s.reverse else s) ∉ lines → g.accepts s = false) ∧
      (∀ s t, g.accepts (s ++ t) = true → (if rtl then s.reverse else s) ∉ lines →
        g.accepts s = false) ∧
      (∀ s t, g.accepts s = true → (if rtl then (s ++ t).reverse else s ++ t) ∉ lines →
        g.accepts (s ++ t) = false) ∧
      g.accepts [] = false ∧ g.rtl = rtl) := by
  constructor
  · intro h
    refine ⟨minimize (((normalize rtl lines).foldl Trie.insert Trie.empty).flatten rtl), ?_⟩
    simp only [compileDictionary, findUnknown_none inventorySize lines h]
  · intro g hg
    have key := compiled_accepts inventorySize rtl lines g hg
    have rej : ∀ s, (if rtl then s.reverse else s) ∉ lines → g.accepts s = false := by
      intro s hs
      cases hacc : g.accepts s
      · rfl
      · exact absurd ((key s).1 hacc).2 hs
    refine ⟨?_, ?_, ?_, rej, ?_, ?_, ?_, ?_⟩
    · intro hr s
      subst hr
      exact key s
    · intro hr s
      subst hr
      exact key s
    · intro lines' g' hg' hsame s
      have key' := compiled_accepts inventorySize rtl lines' g' hg'
      have : g'.accepts s = true ↔ g.accepts s = true := by
        rw [key, key', hsame]
      cases h1 : g'.accepts s <;> cases h2 : g.accepts s <;> simp_all
    · intro s _ _ hs
      exact rej s hs
    · intro s t _ hst
      exact rej _ hst
    · cases hacc : g.accepts []
      · rfl
      · exact absurd rfl ((key []).1 hacc).1
    · rw [compileDictionary_ok inventorySize rtl lines g hg]
      exact minimizeLoop_rtl _ _

theorem dictionary_language_equivalence_witness :
    compileDictionary 3 false sampleWords = .ok sampleGraph ∧
    (∀ s, sampleGraph.accepts s = true ↔ (s ≠ [] ∧ s ∈ sampleWords)) ∧
    sampleGraph.accepts [0] = true ∧ sampleGraph.accepts [0, 1] = true ∧
    sampleGraph.accepts [1, 0] = true ∧ sampleGraph.accepts [1] = false ∧
    sampleGraph.accepts [0, 1, 2] = false ∧ sampleGraph.accepts [] = false ∧
    compileDictionary 3 true sampleRtlWords = .ok sampleRtlGraph ∧
    (∀ s, sampleRtlGraph.accepts s = true ↔ (s ≠ [] ∧ s.reverse ∈ sampleRtlWords)) ∧
    sampleRtlGraph.accepts [1, 0] = true ∧ sampleRtlGraph.accepts [1] = false ∧
    sampleRtlGraph.accepts [1, 0, 0] = false :=
  ⟨rfl, ((dictionary_language_equivalence 3 false sampleWords).2 sampleGraph rfl).1 rfl,
    by decide, by decide, by decide, by decide, by decide, by decide,
    rfl, ((dictionary_language_equivalence 3 true sampleRtlWords).2 sampleRtlGraph rfl).2.1 rfl,
    by decide, by decide, by decide⟩

/-- C8 as stated fails for a right-to-left language: the graph compiled from the single
line `ab` rejects `ab` and accepts `ba`, which is not a line of the list. -/
theorem dictionary_language_equivalence_counterexample :
    compileDictionary 3 true sampleRtlWords = .ok sampleRtlGraph ∧
    sampleRtlGraph.accepts [0, 1] = false ∧ [0, 1] ∈ sampleRtlWords ∧
    sampleRtlGraph.accepts [1, 0] = true ∧ [1, 0] ∉ sampleRtlWords ∧
    ¬ (∀ s, sampleRtlGraph.accepts s = true ↔ (s ≠ [] ∧ s ∈ sampleRtlWords)) :=
  ⟨rfl, by decide, by decide, by decide, by decide,
    fun h => absurd ((h [1, 0]).1 (by decide)).2 (by decide)⟩

end LangModel
